import Mathlib

/-!
Verification of the tabular result aggregator of the hydrology notebook.

The notebook cell under scrutiny is (source `src/unnamed/part_000`,
cell at lines 286-299):

  separator = "|"
  columns = defaultdict(list)
  text = gs.read_command("r.univar", ..., separator=separator, flags="t")
  reader = csv.DictReader(text.splitlines(), delimiter=separator)
  for row in reader:
      for (k, v) in row.items():
          columns[k].append(v)
  watersheds = columns["zone"]
  means = np.array(columns["mean"], dtype=np.float32)
  stddevs = np.array(columns["stddev"], dtype=np.float32)

The shallow embedding below models, faithfully to the CPython `csv`
module (default dialect: quotechar `"`, doublequote=True, escapechar=None,
skipinitialspace=False, strict=False) and to `csv.DictReader`:

* record parsing over the list of lines (`csvRecords`), via the `_csv.c`
  per-character state machine (`lineStepAux`).  The input lines come from
  `str.splitlines()`, which strips line terminators, so `\n`/`\r` never
  occur inside a line and the only end-of-record events are the
  end-of-line (`parse_process_char` with the NUL end marker) and the
  exhaustion of the input.  A quoted field still open at the end of a
  line continues the record into the next line, gluing the lines with no
  separator (the terminator was stripped before csv ever saw it); a
  quoted field still open when the input is exhausted is closed there
  (the non-strict end-of-data branch of `Reader_iternext`).  A record
  therefore starts at a line boundary but may span several lines;
  `parseLine` is the record of a one-line input;
* `DictReader`: the field names are the first *record* (which may span
  lines); blank records (`[]`) are skipped; the row dict is
  `dict(zip(fieldnames, row))`, short rows are padded with
  `restval = None` for the missing field names, surplus values of long
  rows are collected in a list under `restkey = None` (`makeRow`);
  Python dict assignment updates in place, keeping the first-insertion
  position of a key (`dictInsert`);
* the aggregation loop into `columns = defaultdict(list)` (`columns`,
  `processRow`, `colAppend`): appending under a new key creates the key at
  the end, in first-append order, matching dict insertion order;
* `defaultdict` lookup, which yields `[]` for an absent key (`dlookup`);
* `str.splitlines` for the terminators `\n`, `\r\n`, `\r`
  (`pySplitlines`);
* the numeric conversion `np.array(vals, dtype=np.float32)` of a column of
  parsed cells (`npFloat32Column`): numpy converts element after element
  with Python `float()`; the first unconvertible string raises a
  `ValueError` whose message CPython builds from the repr of that value
  alone; `None` converts silently to `nan`; a list element (the restkey
  entry) raises the "sequence" error.  `float()` itself is an external
  runtime primitive (it also accepts Unicode decimal digits and Unicode
  whitespace after CPython's transform), so the conversion is modelled
  parameterized over its scalar acceptance, and the error as a structured
  value carrying exactly the offending string — which is all the
  `ValueError` is built from; `pyFloatOK` is the ASCII fragment of the
  acceptance, used only to instantiate closed evaluations on ASCII
  values, where the fragment is exact.
-/

namespace Grass

/-- A cell value as produced by `csv.DictReader`: a parsed string field
(`val`), the `restval = None` filler for a missing field of a short row
(`restval`), or the `restkey` list of surplus values of a long row
(`rest`). -/
inductive Cell where
  | val (s : String)
  | restval
  | rest (vs : List String)
deriving DecidableEq, Repr

/-- A row dict of `csv.DictReader`, in dict insertion order.  The key
`none` is Python's `restkey = None`; `some f` is the field name `f`. -/
abbrev Row := List (Option String × Cell)

/-- The `columns` table: a `defaultdict(list)` keyed like `Row`, in key
first-insertion order. -/
abbrev Table := List (Option String × List Cell)

/-- States of the CPython `_csv.c` record parser that can occur inside a
single line (START_RECORD is handled in `parseLine`, and EAT_CRNL cannot
occur because `splitlines` strips line terminators). -/
inductive CsvState where
  | startField
  | inField
  | inQuoted
  | quoteInQuoted
deriving DecidableEq, Repr

/-- The outcome of running the record parser over the characters of one
line: the record is `complete` at the line's end (the end-of-line marker
saves the pending field, CPython `parse_process_char` with `c == 0` in any
state but IN_QUOTED_FIELD), or a quoted field is still open and the record
is `pending`, to be continued on the next line with the partial field and
the fields saved so far. -/
inductive LineResult where
  | complete (fields : List String)
  | pending (field : List Char) (acc : List String)
deriving DecidableEq, Repr

/-- The CPython `_csv.c` per-character state machine over one line,
default dialect (quotechar `"` = `\x22`, doublequote, no escapechar,
non-strict).  `field` is the current field's characters in reverse,
`acc` the fields of the record saved so far. -/
def lineStepAux (sep : Char) : List Char → CsvState → List Char → List String → LineResult
  | [], .inQuoted, field, acc => .pending field acc
  | [], _, field, acc => .complete (acc ++ [String.mk field.reverse])
  | c :: cs, .startField, field, acc =>
    if c = '\x22' then lineStepAux sep cs .inQuoted field acc
    else if c = sep then lineStepAux sep cs .startField [] (acc ++ [String.mk field.reverse])
    else lineStepAux sep cs .inField (c :: field) acc
  | c :: cs, .inField, field, acc =>
    if c = sep then lineStepAux sep cs .startField [] (acc ++ [String.mk field.reverse])
    else lineStepAux sep cs .inField (c :: field) acc
  | c :: cs, .inQuoted, field, acc =>
    if c = '\x22' then lineStepAux sep cs .quoteInQuoted field acc
    else lineStepAux sep cs .inQuoted (c :: field) acc
  | c :: cs, .quoteInQuoted, field, acc =>
    if c = '\x22' then lineStepAux sep cs .inQuoted ('\x22' :: field) acc
    else if c = sep then lineStepAux sep cs .startField [] (acc ++ [String.mk field.reverse])
    else lineStepAux sep cs .inField (c :: field) acc

/-- The record the parser yields for a line that is the *last* of the
input: a still-open quoted field is closed by the non-strict end-of-data
branch of `Reader_iternext` (`field_len != 0 or state == IN_QUOTED_FIELD`
saves the field and returns the record). -/
def parseLineAux (sep : Char) (cs : List Char) (st : CsvState) (field : List Char)
    (acc : List String) : List String :=
  match lineStepAux sep cs st field acc with
  | .complete fs => fs
  | .pending f a => a ++ [String.mk f.reverse]

/-- The record of the one-line input `[line]`: a blank line yields the
empty record `[]` (CPython START_RECORD + end of line); otherwise the
state machine runs from START_FIELD, with a still-open quoted field
closed at end of data. -/
def parseLine (sep : Char) (line : String) : List String :=
  if line = "" then [] else parseLineAux sep line.data .startField [] []

/-- Whether one line is a complete record on its own: it is blank, or the
state machine reaches its end outside a quoted field.  Exactly the lines
`l` with `csvRecords sep [l] = [parseLine sep l]` and after which
`csv.reader` starts a fresh record. -/
def lineComplete (sep : Char) (line : String) : Bool :=
  if line = "" then true
  else
    match lineStepAux sep line.data .startField [] [] with
    | .complete _ => true
    | .pending _ _ => false

/-- `csv.reader` over the whole list of lines.  The second argument is the
in-progress record when the previous line left a quoted field open
(`Reader_iternext` keeps fetching lines while the parser state is not
START_RECORD): `none` means the next line starts a fresh record; `some
(field, acc)` resumes IN_QUOTED_FIELD with the partial field and the
fields already saved.  At the end of the input an open record is closed
by the non-strict end-of-data branch. -/
def csvRecordsAux (sep : Char) : List String → Option (List Char × List String) →
    List (List String)
  | [], none => []
  | [], some (field, acc) => [acc ++ [String.mk field.reverse]]
  | line :: rest, none =>
    if line = "" then [] :: csvRecordsAux sep rest none
    else
      match lineStepAux sep line.data .startField [] [] with
      | .complete fs => fs :: csvRecordsAux sep rest none
      | .pending f a => csvRecordsAux sep rest (some (f, a))
  | line :: rest, some (field, acc) =>
    match lineStepAux sep line.data .inQuoted field acc with
    | .complete fs => fs :: csvRecordsAux sep rest none
    | .pending f a => csvRecordsAux sep rest (some (f, a))

/-- The list of records `csv.reader(lines, delimiter=sep)` yields. -/
def csvRecords (sep : Char) (lines : List String) : List (List String) :=
  csvRecordsAux sep lines none

/-- Python dict assignment `d[k] = v` on an association list: an existing
key keeps its position and gets the new value, a new key is appended. -/
def dictInsert : Row → Option String → Cell → Row
  | [], k, v => [(k, v)]
  | (k', v') :: d, k, v => if k' = k then (k, v) :: d else (k', v') :: dictInsert d k v

/-- Fold a list into a dict by repeated `dictInsert`, with `g` giving the
key/value of each element (models `dict(zip(...))` and the `restval`
padding loop of `DictReader.__next__`). -/
def insFold {β : Type} (g : β → Option String × Cell) : Row → List β → Row
  | d, [] => d
  | d, b :: bs => insFold g (dictInsert d (g b).1 (g b).2) bs

/-- `DictReader.__next__` dict construction from a non-blank record `r`:
`d = dict(zip(fieldnames, row))`; then
`if lf < lr: d[restkey] = row[lf:] elif lf > lr: d[key] = restval for key
in fieldnames[lr:]`. -/
def makeRow (fieldnames : List String) (r : List String) : Row :=
  let d := insFold (fun p => (some p.1, Cell.val p.2)) [] (fieldnames.zip r)
  if fieldnames.length < r.length then
    dictInsert d none (Cell.rest (r.drop fieldnames.length))
  else if r.length < fieldnames.length then
    insFold (fun f => (some f, Cell.restval)) d (fieldnames.drop r.length)
  else d

/-- `columns[k].append(v)` on a `defaultdict(list)`: an existing key keeps
its position and its list grows at the end; a missing key is created (at
the end, in dict insertion order) with the one-element list. -/
def colAppend : Table → Option String → Cell → Table
  | [], k, v => [(k, [v])]
  | (k', vs) :: t, k, v =>
    if k' = k then (k', vs ++ [v]) :: t else (k', vs) :: colAppend t k v

/-- The inner loop `for (k, v) in row.items(): columns[k].append(v)`. -/
def processRow : Table → Row → Table
  | t, [] => t
  | t, (k, v) :: d => processRow (colAppend t k v) d

/-- The outer loop `for row in reader`, over the already-parsed records of
the data lines; `DictReader` skips blank records. -/
def processRows (fieldnames : List String) : Table → List (List String) → Table
  | t, [] => t
  | t, r :: rs =>
    if r = [] then processRows fieldnames t rs
    else processRows fieldnames (processRow t (makeRow fieldnames r)) rs

/-- The aggregator: the `columns` table built by the notebook cell from
the list of input lines.  `DictReader` takes the first *record* as the
field names (a record may span lines when a quoted field stays open) and
aggregates the remaining records. -/
def columns (sep : Char) (lines : List String) : Table :=
  match csvRecords sep lines with
  | [] => []
  | header :: body => processRows header [] body

/-- The field names `DictReader` works with: the first record of the
input (`[]` when there is no input at all). -/
def headerFields (sep : Char) (lines : List String) : List String :=
  (csvRecords sep lines).headD []

/-- `str.splitlines` worker (terminators `\n`, `\r\n`, `\r`; an
unterminated final chunk is kept, a trailing terminator adds no empty
line). -/
def pySplitlinesAux : List Char → List Char → List String
  | [], cur => if cur = [] then [] else [String.mk cur.reverse]
  | '\r' :: '\n' :: cs, cur => String.mk cur.reverse :: pySplitlinesAux cs []
  | '\n' :: cs, cur => String.mk cur.reverse :: pySplitlinesAux cs []
  | '\r' :: cs, cur => String.mk cur.reverse :: pySplitlinesAux cs []
  | c :: cs, cur => pySplitlinesAux cs (c :: cur)

/-- `text.splitlines()`. -/
def pySplitlines (s : String) : List String := pySplitlinesAux s.data []

/-- The aggregator applied to the raw captured text, as in the source:
`csv.DictReader(text.splitlines(), delimiter=separator)`. -/
def columnsOfText (sep : Char) (text : String) : Table :=
  columns sep (pySplitlines text)

/-- `defaultdict(list)` read access `columns[k]`: the stored list, or `[]`
for an absent key (the source only ever appends or reads, so the
key-creating side effect of a missing-key read is unobservable here). -/
def dlookup : Table → Option String → List Cell
  | [], _ => []
  | (k', vs) :: t, k => if k' = k then vs else dlookup t k

/-- The keys of a row dict or of the table, in insertion order. -/
def keysOf {α : Type} (l : List (Option String × α)) : List (Option String) :=
  l.map Prod.fst

/-- The values a row dict holds at key `k` (a dict holds at most one). -/
def valuesOf : Row → Option String → List Cell
  | [], _ => []
  | (k', v) :: d, k => if k' = k then v :: valuesOf d k else valuesOf d k

/-- The string content of a cell, for re-joining a row (a `val` cell's
string; the claims use it only on `val` cells). -/
def cellStr : Cell → String
  | .val s => s
  | .restval => ""
  | .rest _ => ""

/-- Join strings with a single-character delimiter (`sep.join(...)`). -/
def joinWithSep (sep : Char) : List String → String
  | [] => ""
  | [s] => s
  | s :: t :: rest => s ++ String.mk [sep] ++ joinWithSep sep (t :: rest)

/-- The k-th row read back from the aggregated table, in header field
order (the field names the program works with, i.e. the first record),
re-joined with the delimiter (the round-trip of the spec). -/
def rowJoin (sep : Char) (lines : List String) (k : Nat) : String :=
  joinWithSep sep
    ((headerFields sep lines).map
      (fun fl => cellStr ((dlookup (columns sep lines) (some fl)).getD k Cell.restval)))

/-- The column table a well-formed input denotes: every header field in
order, each carrying the per-record values of its position.  Used as the
specification side of the main correspondence proof. -/
def tableOf : List String → List (List String) → Table
  | [], _ => []
  | f :: fs, rs =>
    (some f, rs.map (fun r => Cell.val (r.headD ""))) :: tableOf fs (rs.map List.tail)

/-- The row dict of a record whose length equals the header length, as a
plain zip (no padding, no restkey). -/
def rowPairs : List String → List String → Row
  | f :: fs, v :: vs => (some f, Cell.val v) :: rowPairs fs vs
  | _, _ => []

/-- How many parsed records are non-blank (blank records are skipped by
`DictReader`). -/
def recordCount : List (List String) → Nat
  | [] => 0
  | r :: rs => (if r = [] then 0 else 1) + recordCount rs

/-- Splitting a list of characters at every occurrence of `sep`, with no
quote processing; `parseLine` coincides with it on quote-free lines. -/
def splitSep (sep : Char) : List Char → List (List Char)
  | [] => [[]]
  | c :: cs =>
    if c = sep then [] :: splitSep sep cs
    else
      match splitSep sep cs with
      | [] => [[c]]
      | f :: fs => (c :: f) :: fs

/-- Character-level join, inverse of `splitSep`. -/
def joinSepChars (sep : Char) : List (List Char) → List Char
  | [] => []
  | [f] => f
  | f :: g :: fs => f ++ sep :: joinSepChars sep (g :: fs)

/-- Prepend an accumulated (reversed) partial field to the first chunk of
a split, converting all chunks to strings: the generic accumulator shape
of `parseLineAux` on quote-free input. -/
def consRevField (field : List Char) : List (List Char) → List String
  | [] => [String.mk field.reverse]
  | f :: fs => String.mk (field.reverse ++ f) :: fs.map String.mk

/-- ASCII whitespace stripped by Python `float()` around its argument. -/
def isAsciiWs (c : Char) : Bool :=
  c == ' ' || c == '\t' || c == '\n' || c == '\r' || c == '\x0b' || c == '\x0c'

/-- Drop leading ASCII whitespace. -/
def dropLeadingWs : List Char → List Char
  | [] => []
  | c :: cs => if isAsciiWs c then dropLeadingWs cs else c :: cs

/-- Strip ASCII whitespace on both ends. -/
def stripWs (cs : List Char) : List Char :=
  (dropLeadingWs (dropLeadingWs cs).reverse).reverse

/-- After an initial digit: consume further digits, allowing a single
underscore between two digits (Python numeric-literal underscores). -/
def digTail : List Char → List Char
  | '_' :: c :: cs => if c.isDigit then digTail cs else '_' :: c :: cs
  | c :: cs => if c.isDigit then digTail cs else c :: cs
  | [] => []

/-- Consume a digit run (at least one digit, with underscore grouping);
`none` when the input does not start with a digit. -/
def digRunEnd : List Char → Option (List Char)
  | [] => none
  | c :: cs => if c.isDigit then some (digTail cs) else none

/-- A full digit run: the whole rest of the input is one digit run. -/
def expDigits (cs : List Char) : Bool :=
  match digRunEnd cs with
  | some [] => true
  | _ => false

/-- Optional exponent part: empty, or `e`/`E`, optional sign, digits,
consuming the whole rest. -/
def expPartOK : List Char → Bool
  | [] => true
  | c :: cs =>
    if c == 'e' || c == 'E' then
      match cs with
      | s :: cs2 => if s == '+' || s == '-' then expDigits cs2 else expDigits cs
      | [] => false
    else false

/-- The numeric body of a Python float literal after the optional sign:
digits with optional fraction, or a fraction alone, then an optional
exponent. -/
def floatBody (cs : List Char) : Bool :=
  match digRunEnd cs with
  | some rest =>
    match rest with
    | '.' :: rest2 =>
      (match digRunEnd rest2 with
       | some rest3 => expPartOK rest3
       | none => expPartOK rest2)
    | _ => expPartOK rest
  | none =>
    match cs with
    | '.' :: rest2 =>
      (match digRunEnd rest2 with
       | some rest3 => expPartOK rest3
       | none => false)
    | _ => false

/-- ASCII lower-casing, for the case-insensitive `inf`/`nan` words. -/
def asciiLower (c : Char) : Char :=
  if 'A' ≤ c ∧ c ≤ 'Z' then Char.ofNat (c.toNat + 32) else c

/-- The ASCII fragment of CPython `float(s)` acceptance: optional
whitespace and sign, then `inf`, `infinity` or `nan` case-insensitively,
or a numeric literal with underscore grouping.  CPython first maps
Unicode decimal digits to ASCII digits and Unicode whitespace to spaces,
so this fragment is exact on strings made of ASCII characters; it serves
only as a concrete `accept` instance in closed evaluations here, all of
which use ASCII values.  The theorems about the conversion take the
acceptance as a parameter instead of relying on this fragment. -/
def pyFloatOK (s : String) : Bool :=
  let cs := stripWs s.data
  let cs2 :=
    match cs with
    | c :: rest => if c == '+' || c == '-' then rest else cs
    | [] => cs
  let low := cs2.map asciiLower
  if low = "inf".data ∨ low = "infinity".data ∨ low = "nan".data then true
  else floatBody cs2

/-- The two errors `np.array(vals, dtype=np.float32)` can raise on one
aggregated column: the `ValueError` of Python `float()` on an
unconvertible string — CPython builds its message from the repr of that
value and nothing else, so the error is modelled as carrying exactly the
offending value (in particular it carries no column name; no column is
ever passed to the conversion) — and the numpy error on a nested list
element (the restkey entry). -/
inductive ConvErr where
  | valueError (offending : String)
  | sequenceError
deriving DecidableEq, Repr

/-- `np.array(vals, dtype=np.float32)` on one aggregated column: numpy
converts element after element with Python `float()`, whose scalar
acceptance `accept` is an external runtime primitive taken as a
parameter (CPython also accepts Unicode decimal digits and whitespace;
only the success/failure structure enters the claims).  The first
unconvertible string raises the `ValueError` carrying that value; `None`
becomes `nan` silently; a nested list raises the sequence error.  Only
acceptance and the error are modelled, never a floating-point value. -/
def npFloat32Column (accept : String → Bool) : List Cell → Except ConvErr Unit
  | [] => .ok ()
  | c :: rest =>
    match c with
    | .val s =>
      if accept s then npFloat32Column accept rest
      else .error (ConvErr.valueError s)
    | .restval => npFloat32Column accept rest
    | .rest _ => .error ConvErr.sequenceError

/-- Whether a cell is a restkey (surplus-values) cell. -/
def isRest : Cell → Bool
  | .rest _ => true
  | _ => false

/-! ## Generic list helpers -/

theorem getD_map_of_lt {α β : Type} (g : α → β) (d : β) (e : α) :
    ∀ (rs : List α) (k : Nat), k < rs.length → (rs.map g).getD k d = g (rs.getD k e) := by
  intro rs
  induction rs with
  | nil => intro k h; simp at h
  | cons r rs ih =>
    intro k h
    cases k with
    | zero => rfl
    | succ k => exact ih k (by simpa using h)

theorem getD_mem_of_lt {α : Type} (d : α) :
    ∀ (l : List α) (k : Nat), k < l.length → l.getD k d ∈ l := by
  intro l
  induction l with
  | nil => intro k h; simp at h
  | cons a l ih =>
    intro k h
    cases k with
    | zero => exact List.mem_cons_self a l
    | succ k => exact List.mem_cons_of_mem a (ih k (by simpa using h))

theorem headD_cons_tail {α : Type} (d : α) {l : List α} (h : l ≠ []) :
    l.headD d :: l.tail = l := by
  cases l with
  | nil => exact absurd rfl h
  | cons a l => rfl

/-! ## Dict (`Row`) lemmas: `dictInsert` and `insFold` -/

@[simp] theorem keysOf_nil {α : Type} : keysOf ([] : List (Option String × α)) = [] := rfl

@[simp] theorem keysOf_cons {α : Type} (p : Option String × α) (l : List (Option String × α)) :
    keysOf (p :: l) = p.1 :: keysOf l := rfl

theorem keysOf_append {α : Type} (l₁ l₂ : List (Option String × α)) :
    keysOf (l₁ ++ l₂) = keysOf l₁ ++ keysOf l₂ := by
  simp [keysOf]

theorem dictInsert_cons_hit {d : Row} {k k' : Option String} (h : k' = k) (v' v : Cell) :
    dictInsert ((k', v') :: d) k v = (k, v) :: d := by
  simp [dictInsert, h]

theorem dictInsert_cons_miss {d : Row} {k k' : Option String} (h : k' ≠ k) (v' v : Cell) :
    dictInsert ((k', v') :: d) k v = (k', v') :: dictInsert d k v := by
  simp [dictInsert, h]

theorem mem_keysOf_dictInsert {d : Row} {k x : Option String} {v : Cell}
    (h : x ∈ keysOf (dictInsert d k v)) : x ∈ keysOf d ∨ x = k := by
  induction d with
  | nil =>
    simp only [dictInsert, keysOf_cons, keysOf_nil, List.mem_singleton] at h
    exact Or.inr h
  | cons p d ih =>
    obtain ⟨k', v'⟩ := p
    by_cases hk : k' = k
    · subst hk
      rw [dictInsert_cons_hit rfl] at h
      simp only [keysOf_cons, List.mem_cons] at h ⊢
      rcases h with h | h
      · exact Or.inr h
      · exact Or.inl (Or.inr h)
    · rw [dictInsert_cons_miss hk] at h
      simp only [keysOf_cons, List.mem_cons] at h ⊢
      rcases h with h | h
      · exact Or.inl (Or.inl h)
      · rcases ih h with h | h
        · exact Or.inl (Or.inr h)
        · exact Or.inr h

theorem self_mem_keysOf_dictInsert (d : Row) (k : Option String) (v : Cell) :
    k ∈ keysOf (dictInsert d k v) := by
  induction d with
  | nil => simp [dictInsert]
  | cons p d ih =>
    obtain ⟨k', v'⟩ := p
    by_cases hk : k' = k
    · subst hk
      rw [dictInsert_cons_hit rfl]
      simp
    · rw [dictInsert_cons_miss hk]
      simp only [keysOf_cons, List.mem_cons]
      exact Or.inr ih

theorem mem_keysOf_dictInsert_of_mem {d : Row} {x : Option String}
    (h : x ∈ keysOf d) (k : Option String) (v : Cell) :
    x ∈ keysOf (dictInsert d k v) := by
  induction d with
  | nil => simp at h
  | cons p d ih =>
    obtain ⟨k', v'⟩ := p
    simp only [keysOf_cons, List.mem_cons] at h
    by_cases hk : k' = k
    · subst hk
      rw [dictInsert_cons_hit rfl]
      simp only [keysOf_cons, List.mem_cons]
      exact h
    · rw [dictInsert_cons_miss hk]
      simp only [keysOf_cons, List.mem_cons]
      rcases h with h | h
      · exact Or.inl h
      · exact Or.inr (ih h)

theorem keysOf_dictInsert_nodup {d : Row} (h : (keysOf d).Nodup)
    (k : Option String) (v : Cell) : (keysOf (dictInsert d k v)).Nodup := by
  induction d with
  | nil => simp [dictInsert]
  | cons p d ih =>
    obtain ⟨k', v'⟩ := p
    simp only [keysOf_cons, List.nodup_cons] at h
    by_cases hk : k' = k
    · subst hk
      rw [dictInsert_cons_hit rfl]
      simp only [keysOf_cons, List.nodup_cons]
      exact h
    · rw [dictInsert_cons_miss hk]
      simp only [keysOf_cons, List.nodup_cons]
      refine ⟨fun hmem => ?_, ih h.2⟩
      rcases mem_keysOf_dictInsert hmem with hm | hm
      · exact h.1 hm
      · exact hk hm

theorem mem_dictInsert {d : Row} {k : Option String} {v : Cell} {p : Option String × Cell}
    (h : p ∈ dictInsert d k v) : p = (k, v) ∨ p ∈ d := by
  induction d with
  | nil => simpa [dictInsert] using h
  | cons q d ih =>
    obtain ⟨k', v'⟩ := q
    by_cases hk : k' = k
    · subst hk
      rw [dictInsert_cons_hit rfl] at h
      rcases List.mem_cons.mp h with h | h
      · exact Or.inl h
      · exact Or.inr (List.mem_cons_of_mem _ h)
    · rw [dictInsert_cons_miss hk] at h
      rcases List.mem_cons.mp h with h | h
      · exact Or.inr (by simp [h])
      · rcases ih h with h | h
        · exact Or.inl h
        · exact Or.inr (List.mem_cons_of_mem _ h)

theorem mem_dictInsert_of_mem {d : Row} {p : Option String × Cell}
    (h : p ∈ d) {k : Option String} (hne : p.1 ≠ k) (v : Cell) :
    p ∈ dictInsert d k v := by
  induction d with
  | nil => simp at h
  | cons q d ih =>
    obtain ⟨k', v'⟩ := q
    by_cases hk : k' = k
    · subst hk
      rw [dictInsert_cons_hit rfl]
      rcases List.mem_cons.mp h with h | h
      · exfalso; apply hne; rw [h]
      · exact List.mem_cons_of_mem _ h
    · rw [dictInsert_cons_miss hk]
      rcases List.mem_cons.mp h with h | h
      · exact h ▸ List.mem_cons_self _ _
      · exact List.mem_cons_of_mem _ (ih h)

theorem self_mem_dictInsert (d : Row) (k : Option String) (v : Cell) :
    (k, v) ∈ dictInsert d k v := by
  induction d with
  | nil => simp [dictInsert]
  | cons q d ih =>
    obtain ⟨k', v'⟩ := q
    by_cases hk : k' = k
    · subst hk
      rw [dictInsert_cons_hit rfl]
      exact List.mem_cons_self _ _
    · rw [dictInsert_cons_miss hk]
      exact List.mem_cons_of_mem _ ih

theorem dictInsert_of_not_mem {d : Row} {k : Option String}
    (h : k ∉ keysOf d) (v : Cell) : dictInsert d k v = d ++ [(k, v)] := by
  induction d with
  | nil => rfl
  | cons q d ih =>
    obtain ⟨k', v'⟩ := q
    simp only [keysOf_cons, List.mem_cons] at h
    push_neg at h
    rw [dictInsert_cons_miss (fun he => h.1 he.symm)]
    simp only [List.cons_append, List.cons.injEq, true_and]
    exact ih h.2

theorem mem_keysOf_insFold_of_mem {β : Type} (g : β → Option String × Cell)
    {x : Option String} :
    ∀ (l : List β) (d : Row), x ∈ keysOf d → x ∈ keysOf (insFold g d l) := by
  intro l
  induction l with
  | nil => intro d h; exact h
  | cons b l ih =>
    intro d h
    exact ih _ (mem_keysOf_dictInsert_of_mem h _ _)

theorem mem_keysOf_insFold_of_elem {β : Type} (g : β → Option String × Cell) {b : β} :
    ∀ (l : List β) (d : Row), b ∈ l → (g b).1 ∈ keysOf (insFold g d l) := by
  intro l
  induction l with
  | nil => intro d h; simp at h
  | cons b' l ih =>
    intro d h
    rcases List.mem_cons.mp h with h | h
    · subst h
      exact mem_keysOf_insFold_of_mem g l _ (self_mem_keysOf_dictInsert _ _ _)
    · exact ih _ h

theorem keysOf_insFold_nodup {β : Type} (g : β → Option String × Cell) :
    ∀ (l : List β) (d : Row), (keysOf d).Nodup → (keysOf (insFold g d l)).Nodup := by
  intro l
  induction l with
  | nil => intro d h; exact h
  | cons b l ih =>
    intro d h
    exact ih _ (keysOf_dictInsert_nodup h _ _)

theorem mem_keysOf_insFold {β : Type} (g : β → Option String × Cell) {x : Option String} :
    ∀ (l : List β) (d : Row), x ∈ keysOf (insFold g d l) →
      x ∈ keysOf d ∨ ∃ b ∈ l, x = (g b).1 := by
  intro l
  induction l with
  | nil => intro d h; exact Or.inl h
  | cons b l ih =>
    intro d h
    rcases ih _ h with h | h
    · rcases mem_keysOf_dictInsert h with h | h
      · exact Or.inl h
      · exact Or.inr ⟨b, List.mem_cons_self _ _, h⟩
    · obtain ⟨b', hb', he⟩ := h
      exact Or.inr ⟨b', List.mem_cons_of_mem _ hb', he⟩

theorem mem_insFold {β : Type} (g : β → Option String × Cell) {p : Option String × Cell} :
    ∀ (l : List β) (d : Row), p ∈ insFold g d l → p ∈ d ∨ ∃ b ∈ l, p = g b := by
  intro l
  induction l with
  | nil => intro d h; exact Or.inl h
  | cons b l ih =>
    intro d h
    rcases ih _ h with h | h
    · rcases mem_dictInsert h with h | h
      · exact Or.inr ⟨b, List.mem_cons_self _ _, h⟩
      · exact Or.inl h
    · obtain ⟨b', hb', he⟩ := h
      exact Or.inr ⟨b', List.mem_cons_of_mem _ hb', he⟩

theorem mem_insFold_of_mem {β : Type} (g : β → Option String × Cell)
    {p : Option String × Cell} :
    ∀ (l : List β) (d : Row), p ∈ d → (∀ b ∈ l, (g b).1 ≠ p.1) → p ∈ insFold g d l := by
  intro l
  induction l with
  | nil => intro d h _; exact h
  | cons b l ih =>
    intro d h hne
    refine ih _ (mem_dictInsert_of_mem h ?_ _) ?_
    · exact fun he => hne b (List.mem_cons_self _ _) he.symm
    · exact fun b' hb' => hne b' (List.mem_cons_of_mem _ hb')

theorem mem_insFold_restval {l : List String} {f : String} (hnd : l.Nodup) (hf : f ∈ l) :
    ∀ d : Row, (some f, Cell.restval) ∈ insFold (fun f => (some f, Cell.restval)) d l := by
  induction l with
  | nil => simp at hf
  | cons f' l ih =>
    intro d
    simp only [List.nodup_cons] at hnd
    rcases List.mem_cons.mp hf with h | h
    · subst h
      refine mem_insFold_of_mem _ l _ (self_mem_dictInsert _ _ _) ?_
      intro b hb he
      simp only [Option.some.injEq] at he
      exact hnd.1 (he ▸ hb)
    · exact ih hnd.2 h _

/-! ## `valuesOf` lemmas -/

theorem valuesOf_cons_hit (d : Row) (k : Option String) (v : Cell) :
    valuesOf ((k, v) :: d) k = v :: valuesOf d k := by
  simp [valuesOf]

theorem valuesOf_cons_miss {k k' : Option String} (h : k' ≠ k) (d : Row) (v : Cell) :
    valuesOf ((k', v) :: d) k = valuesOf d k := by
  simp [valuesOf, h]

theorem valuesOf_of_not_mem {d : Row} {k : Option String}
    (h : k ∉ keysOf d) : valuesOf d k = [] := by
  induction d with
  | nil => rfl
  | cons q d ih =>
    obtain ⟨k', v'⟩ := q
    simp only [keysOf_cons, List.mem_cons] at h
    push_neg at h
    rw [valuesOf_cons_miss (fun he => h.1 he.symm)]
    exact ih h.2

theorem valuesOf_eq_singleton {d : Row} {k : Option String}
    (hnd : (keysOf d).Nodup) (hk : k ∈ keysOf d) :
    ∃ v, valuesOf d k = [v] ∧ (k, v) ∈ d := by
  induction d with
  | nil => simp at hk
  | cons q d ih =>
    obtain ⟨k', v'⟩ := q
    simp only [keysOf_cons, List.nodup_cons] at hnd
    simp only [keysOf_cons, List.mem_cons] at hk
    by_cases he : k' = k
    · subst he
      refine ⟨v', ?_, List.mem_cons_self _ _⟩
      rw [valuesOf_cons_hit, valuesOf_of_not_mem hnd.1]
    · rcases hk with hk | hk
      · exact absurd hk.symm he
      · obtain ⟨v, hv, hm⟩ := ih hnd.2 hk
        refine ⟨v, ?_, List.mem_cons_of_mem _ hm⟩
        rw [valuesOf_cons_miss he]
        exact hv

theorem mem_of_mem_valuesOf {d : Row} {k : Option String} {c : Cell}
    (h : c ∈ valuesOf d k) : (k, c) ∈ d := by
  induction d with
  | nil => simp [valuesOf] at h
  | cons q d ih =>
    obtain ⟨k', v'⟩ := q
    by_cases he : k' = k
    · subst he
      rw [valuesOf_cons_hit] at h
      rcases List.mem_cons.mp h with h | h
      · exact h ▸ List.mem_cons_self _ _
      · exact List.mem_cons_of_mem _ (ih h)
    · rw [valuesOf_cons_miss he] at h
      exact List.mem_cons_of_mem _ (ih h)

theorem value_unique {d : Row} {k : Option String} {v w : Cell}
    (hnd : (keysOf d).Nodup) (hv : (k, v) ∈ d) (hw : (k, w) ∈ d) : v = w := by
  induction d with
  | nil => simp at hv
  | cons q d ih =>
    obtain ⟨k', v'⟩ := q
    simp only [keysOf_cons, List.nodup_cons] at hnd
    rcases List.mem_cons.mp hv with hv1 | hv1 <;> rcases List.mem_cons.mp hw with hw1 | hw1
    · simp only [Prod.mk.injEq] at hv1 hw1
      rw [hv1.2, hw1.2]
    · exfalso
      apply hnd.1
      simp only [Prod.mk.injEq] at hv1
      rw [← hv1.1]
      exact List.mem_map_of_mem Prod.fst hw1
    · exfalso
      apply hnd.1
      simp only [Prod.mk.injEq] at hw1
      rw [← hw1.1]
      exact List.mem_map_of_mem Prod.fst hv1
    · exact ih hnd.2 hv1 hw1

/-! ## `dlookup`, `colAppend`, `processRow` lemmas -/

theorem dlookup_cons_hit (t : Table) (k : Option String) (vs : List Cell) :
    dlookup ((k, vs) :: t) k = vs := by
  simp [dlookup]

theorem dlookup_cons_miss {k k' : Option String} (h : k' ≠ k) (t : Table) (vs : List Cell) :
    dlookup ((k', vs) :: t) k = dlookup t k := by
  simp [dlookup, h]

theorem colAppend_cons_hit (t : Table) (k : Option String) (vs : List Cell) (v : Cell) :
    colAppend ((k, vs) :: t) k v = (k, vs ++ [v]) :: t := by
  simp [colAppend]

theorem colAppend_cons_miss {k k' : Option String} (h : k' ≠ k) (t : Table)
    (vs : List Cell) (v : Cell) :
    colAppend ((k', vs) :: t) k v = (k', vs) :: colAppend t k v := by
  simp [colAppend, h]

theorem dlookup_of_not_mem {t : Table} {k : Option String}
    (h : k ∉ keysOf t) : dlookup t k = [] := by
  induction t with
  | nil => rfl
  | cons q t ih =>
    obtain ⟨k', vs⟩ := q
    simp only [keysOf_cons, List.mem_cons] at h
    push_neg at h
    rw [dlookup_cons_miss (fun he => h.1 he.symm)]
    exact ih h.2

theorem dlookup_colAppend_self (t : Table) (k : Option String) (v : Cell) :
    dlookup (colAppend t k v) k = dlookup t k ++ [v] := by
  induction t with
  | nil => simp [colAppend, dlookup]
  | cons q t ih =>
    obtain ⟨k', vs⟩ := q
    by_cases he : k' = k
    · subst he
      rw [colAppend_cons_hit, dlookup_cons_hit, dlookup_cons_hit]
    · rw [colAppend_cons_miss he, dlookup_cons_miss he, dlookup_cons_miss he]
      exact ih

theorem dlookup_colAppend_other {k k' : Option String} (hne : k' ≠ k)
    (t : Table) (v : Cell) : dlookup (colAppend t k v) k' = dlookup t k' := by
  induction t with
  | nil =>
    simp only [colAppend, dlookup]
    rw [if_neg (fun he : k = k' => hne he.symm)]
  | cons q t ih =>
    obtain ⟨k₀, vs⟩ := q
    by_cases he : k₀ = k
    · subst he
      rw [colAppend_cons_hit, dlookup_cons_miss (Ne.symm hne), dlookup_cons_miss (Ne.symm hne)]
    · rw [colAppend_cons_miss he]
      by_cases he2 : k₀ = k'
      · subst he2
        rw [dlookup_cons_hit, dlookup_cons_hit]
      · rw [dlookup_cons_miss he2, dlookup_cons_miss he2]
        exact ih

theorem dlookup_processRow (d : Row) :
    ∀ (t : Table) (k : Option String),
      dlookup (processRow t d) k = dlookup t k ++ valuesOf d k := by
  induction d with
  | nil => intro t k; simp [processRow, valuesOf]
  | cons q d ih =>
    intro t k
    obtain ⟨k₁, v₁⟩ := q
    simp only [processRow]
    rw [ih]
    by_cases he : k₁ = k
    · subst he
      rw [dlookup_colAppend_self, valuesOf_cons_hit]
      simp
    · rw [dlookup_colAppend_other (fun h2 => he h2.symm), valuesOf_cons_miss he]

theorem mem_keysOf_colAppend {t : Table} {k x : Option String} {v : Cell}
    (h : x ∈ keysOf (colAppend t k v)) : x ∈ keysOf t ∨ x = k := by
  induction t with
  | nil =>
    simp only [colAppend, keysOf_cons, keysOf_nil, List.mem_singleton] at h
    exact Or.inr h
  | cons q t ih =>
    obtain ⟨k', vs⟩ := q
    by_cases he : k' = k
    · subst he
      rw [colAppend_cons_hit] at h
      simp only [keysOf_cons, List.mem_cons] at h ⊢
      exact Or.inl h
    · rw [colAppend_cons_miss he] at h
      simp only [keysOf_cons, List.mem_cons] at h ⊢
      rcases h with h | h
      · exact Or.inl (Or.inl h)
      · rcases ih h with h2 | h2
        · exact Or.inl (Or.inr h2)
        · exact Or.inr h2

theorem mem_keysOf_processRow {d : Row} :
    ∀ {t : Table} {x : Option String}, x ∈ keysOf (processRow t d) →
      x ∈ keysOf t ∨ x ∈ keysOf d := by
  induction d with
  | nil => intro t x h; exact Or.inl h
  | cons q d ih =>
    intro t x h
    obtain ⟨k₁, v₁⟩ := q
    simp only [processRow] at h
    rcases ih h with h2 | h2
    · rcases mem_keysOf_colAppend h2 with h3 | h3
      · exact Or.inl h3
      · exact Or.inr (by simp [h3])
    · exact Or.inr (by simp only [keysOf_cons, List.mem_cons]; exact Or.inr h2)

theorem processRow_cons_skip {d : Row} {k₀ : Option String}
    (h : ∀ p ∈ d, p.1 ≠ k₀) (c₀ : List Cell) :
    ∀ t : Table, processRow ((k₀, c₀) :: t) d = (k₀, c₀) :: processRow t d := by
  induction d with
  | nil => intro t; rfl
  | cons q d ih =>
    intro t
    obtain ⟨k₁, v₁⟩ := q
    have hne : k₁ ≠ k₀ := h (k₁, v₁) (List.mem_cons_self _ _)
    simp only [processRow]
    rw [colAppend_cons_miss (fun he => hne he.symm)]
    exact ih (fun p hp => h p (List.mem_cons_of_mem _ hp)) _

/-! ## `makeRow` structure lemmas -/

theorem mem_zip_fst {α β : Type} {a : α} {b : β} :
    ∀ {l₁ : List α} {l₂ : List β}, (a, b) ∈ l₁.zip l₂ → a ∈ l₁ := by
  intro l₁
  induction l₁ with
  | nil => intro l₂ h; simp at h
  | cons x l₁ ih =>
    intro l₂ h
    cases l₂ with
    | nil => simp at h
    | cons y l₂ =>
      rcases List.mem_cons.mp h with h | h
      · simp only [Prod.mk.injEq] at h
        exact h.1 ▸ List.mem_cons_self _ _
      · exact List.mem_cons_of_mem _ (ih h)

theorem mem_zip_of_mem_take {α β : Type} {f : α} :
    ∀ {l₁ : List α} {l₂ : List β}, f ∈ l₁.take l₂.length → ∃ v, (f, v) ∈ l₁.zip l₂ := by
  intro l₁
  induction l₁ with
  | nil => intro l₂ h; simp at h
  | cons x l₁ ih =>
    intro l₂ h
    cases l₂ with
    | nil => simp at h
    | cons y l₂ =>
      simp only [List.length_cons, List.take_succ_cons, List.mem_cons] at h
      rcases h with h | h
      · exact ⟨y, by simp [h]⟩
      · obtain ⟨v, hv⟩ := ih h
        exact ⟨v, List.mem_cons_of_mem _ hv⟩

theorem mem_of_mem_drop {α : Type} {f : α} {n : Nat} {l : List α}
    (h : f ∈ l.drop n) : f ∈ l := by
  have := List.take_append_drop n l
  rw [← this]
  exact List.mem_append_right _ h

theorem keysOf_makeRow_nodup (fieldnames : List String) (r : List String) :
    (keysOf (makeRow fieldnames r)).Nodup := by
  have h1 : (keysOf (insFold (fun p => (some p.1, Cell.val p.2)) [] (fieldnames.zip r))).Nodup :=
    keysOf_insFold_nodup _ _ _ (by simp)
  unfold makeRow
  by_cases hlt : fieldnames.length < r.length
  · simp only [if_pos hlt]
    exact keysOf_dictInsert_nodup h1 _ _
  · simp only [if_neg hlt]
    by_cases hgt : r.length < fieldnames.length
    · simp only [if_pos hgt]
      exact keysOf_insFold_nodup _ _ _ h1
    · simp only [if_neg hgt]
      exact h1

theorem mem_keysOf_makeRow {fieldnames : List String} {r : List String} {f : String}
    (hf : f ∈ fieldnames) : some f ∈ keysOf (makeRow fieldnames r) := by
  unfold makeRow
  by_cases hlt : fieldnames.length < r.length
  · simp only [if_pos hlt]
    have hft : f ∈ fieldnames.take r.length := by
      rwa [List.take_of_length_le (Nat.le_of_lt hlt)]
    obtain ⟨v, hv⟩ := mem_zip_of_mem_take hft
    exact mem_keysOf_dictInsert_of_mem
      (mem_keysOf_insFold_of_elem _ _ _ hv) _ _
  · simp only [if_neg hlt]
    by_cases hgt : r.length < fieldnames.length
    · simp only [if_pos hgt]
      by_cases hft : f ∈ fieldnames.take r.length
      · obtain ⟨v, hv⟩ := mem_zip_of_mem_take hft
        exact mem_keysOf_insFold_of_mem _ _ _
          (mem_keysOf_insFold_of_elem _ _ _ hv)
      · have hfd : f ∈ fieldnames.drop r.length := by
          rcases List.mem_append.mp (by rwa [List.take_append_drop] : f ∈ fieldnames.take r.length ++ fieldnames.drop r.length) with h | h
          · exact absurd h hft
          · exact h
        exact mem_keysOf_insFold_of_elem (fun f => (some f, Cell.restval)) _ _ hfd
    · simp only [if_neg hgt]
      have hle : fieldnames.length ≤ r.length := Nat.le_of_not_lt hgt
      have hft : f ∈ fieldnames.take r.length := by
        rwa [List.take_of_length_le hle]
      obtain ⟨v, hv⟩ := mem_zip_of_mem_take hft
      exact mem_keysOf_insFold_of_elem _ _ _ hv

theorem makeRow_pair_shape {fieldnames : List String} {r : List String}
    {p : Option String × Cell} (hp : p ∈ makeRow fieldnames r) :
    (∃ f s, p = (some f, Cell.val s)) ∨ (∃ f, p = (some f, Cell.restval)) ∨
      p = (none, Cell.rest (r.drop fieldnames.length)) := by
  have base : ∀ q : Option String × Cell,
      q ∈ insFold (fun p => (some p.1, Cell.val p.2)) [] (fieldnames.zip r) →
      ∃ f s, q = (some f, Cell.val s) := by
    intro q hq
    rcases mem_insFold _ _ _ hq with h | h
    · simp at h
    · obtain ⟨b, _, he⟩ := h
      exact ⟨b.1, b.2, he⟩
  unfold makeRow at hp
  by_cases hlt : fieldnames.length < r.length
  · simp only [if_pos hlt] at hp
    rcases mem_dictInsert hp with h | h
    · exact Or.inr (Or.inr h)
    · obtain ⟨f, s, he⟩ := base _ h
      exact Or.inl ⟨f, s, he⟩
  · simp only [if_neg hlt] at hp
    by_cases hgt : r.length < fieldnames.length
    · simp only [if_pos hgt] at hp
      rcases mem_insFold _ _ _ hp with h | h
      · obtain ⟨f, s, he⟩ := base _ h
        exact Or.inl ⟨f, s, he⟩
      · obtain ⟨b, _, he⟩ := h
        exact Or.inr (Or.inl ⟨b, he⟩)
    · simp only [if_neg hgt] at hp
      obtain ⟨f, s, he⟩ := base _ hp
      exact Or.inl ⟨f, s, he⟩

theorem mem_keysOf_makeRow_shape {fieldnames : List String} {r : List String}
    {x : Option String} (hx : x ∈ keysOf (makeRow fieldnames r)) :
    (∃ f ∈ fieldnames, x = some f) ∨ x = none := by
  have base : ∀ y : Option String,
      y ∈ keysOf (insFold (fun p => (some p.1, Cell.val p.2)) [] (fieldnames.zip r)) →
      ∃ f ∈ fieldnames, y = some f := by
    intro y hy
    rcases mem_keysOf_insFold _ _ _ hy with h | h
    · simp at h
    · obtain ⟨b, hb, he⟩ := h
      obtain ⟨b1, b2⟩ := b
      exact ⟨b1, mem_zip_fst hb, he⟩
  unfold makeRow at hx
  by_cases hlt : fieldnames.length < r.length
  · simp only [if_pos hlt] at hx
    rcases mem_keysOf_dictInsert hx with h | h
    · exact Or.inl (base _ h)
    · exact Or.inr h
  · simp only [if_neg hlt] at hx
    by_cases hgt : r.length < fieldnames.length
    · simp only [if_pos hgt] at hx
      rcases mem_keysOf_insFold _ _ _ hx with h | h
      · exact Or.inl (base _ h)
      · obtain ⟨b, hb, he⟩ := h
        exact Or.inl ⟨b, mem_of_mem_drop hb, he⟩
    · simp only [if_neg hgt] at hx
      exact Or.inl (base _ hx)

theorem makeRow_pad_restval {fieldnames : List String} {r : List String} {f : String}
    (hnd : fieldnames.Nodup) (hgt : r.length < fieldnames.length)
    (hf : f ∈ fieldnames.drop r.length) :
    (some f, Cell.restval) ∈ makeRow fieldnames r := by
  unfold makeRow
  simp only [if_neg (Nat.not_lt.mpr (Nat.le_of_lt hgt)), if_pos hgt]
  exact mem_insFold_restval (hnd.sublist (List.drop_sublist _ _)) hf _

/-! ## Well-formed records: `rowPairs`, `tableOf` and the master equation -/

theorem mem_keysOf_rowPairs {x : Option String} :
    ∀ {fs vs : List String}, x ∈ keysOf (rowPairs fs vs) → ∃ f ∈ fs, x = some f := by
  intro fs
  induction fs with
  | nil => intro vs h; simp [rowPairs] at h
  | cons f fs ih =>
    intro vs h
    cases vs with
    | nil => simp [rowPairs] at h
    | cons v vs =>
      simp only [rowPairs, keysOf_cons, List.mem_cons] at h
      rcases h with h | h
      · exact ⟨f, List.mem_cons_self _ _, h⟩
      · obtain ⟨f', hf', he⟩ := ih h
        exact ⟨f', List.mem_cons_of_mem _ hf', he⟩

theorem insFold_zip_fresh :
    ∀ (fieldnames r : List String) (d : Row), fieldnames.Nodup →
      (∀ f ∈ fieldnames, some f ∉ keysOf d) →
      insFold (fun p => (some p.1, Cell.val p.2)) d (fieldnames.zip r) =
        d ++ rowPairs fieldnames r := by
  intro fieldnames
  induction fieldnames with
  | nil => intro r d _ _; simp [rowPairs, insFold]
  | cons f fs ih =>
    intro r d hnd hfresh
    cases r with
    | nil => simp [rowPairs, insFold]
    | cons v vs =>
      simp only [List.zip_cons_cons, insFold, rowPairs]
      rw [dictInsert_of_not_mem (hfresh f (List.mem_cons_self _ _)) (Cell.val v)]
      rw [show List.zipWith Prod.mk fs vs = fs.zip vs from rfl]
      rw [ih vs _ (List.nodup_cons.mp hnd).2 ?_]
      · simp
      · intro f' hf'
        rw [keysOf_append]
        simp only [List.mem_append, keysOf_cons, keysOf_nil]
        push_neg
        refine ⟨hfresh f' (List.mem_cons_of_mem _ hf'), ?_⟩
        simp only [List.mem_singleton, Option.some.injEq]
        intro he
        exact (List.nodup_cons.mp hnd).1 (he ▸ hf')

theorem makeRow_eq_rowPairs {fieldnames r : List String}
    (hnd : fieldnames.Nodup) (hlen : r.length = fieldnames.length) :
    makeRow fieldnames r = rowPairs fieldnames r := by
  unfold makeRow
  simp only [hlen, Nat.lt_irrefl, if_neg (Nat.lt_irrefl _)]
  rw [insFold_zip_fresh fieldnames r [] hnd (by simp)]
  simp

theorem processRow_nil_rowPairs :
    ∀ {fieldnames r : List String}, fieldnames.Nodup → r.length = fieldnames.length →
      processRow [] (rowPairs fieldnames r) = tableOf fieldnames [r] := by
  intro fieldnames
  induction fieldnames with
  | nil =>
    intro r _ hlen
    rw [List.length_eq_zero.mp hlen]
    rfl
  | cons f fs ih =>
    intro r hnd hlen
    cases r with
    | nil => simp at hlen
    | cons v vs =>
      simp only [rowPairs, processRow, colAppend]
      rw [processRow_cons_skip ?_ _ _]
      · rw [ih (List.nodup_cons.mp hnd).2 (by simpa using hlen)]
        simp [tableOf]
      · intro p hp he
        obtain ⟨f', hf', he2⟩ := mem_keysOf_rowPairs (he ▸ List.mem_map_of_mem Prod.fst hp)
        simp only [Option.some.injEq] at he2
        exact (List.nodup_cons.mp hnd).1 (he2 ▸ hf')

theorem processRow_tableOf_step :
    ∀ {fieldnames r : List String} (rs : List (List String)),
      fieldnames.Nodup → r.length = fieldnames.length →
      processRow (tableOf fieldnames rs) (rowPairs fieldnames r) =
        tableOf fieldnames (rs ++ [r]) := by
  intro fieldnames
  induction fieldnames with
  | nil =>
    intro r rs _ hlen
    rw [List.length_eq_zero.mp hlen]
    rfl
  | cons f fs ih =>
    intro r rs hnd hlen
    cases r with
    | nil => simp at hlen
    | cons v vs =>
      simp only [rowPairs, tableOf, processRow]
      rw [colAppend_cons_hit]
      rw [processRow_cons_skip ?_ _ _]
      · rw [ih (rs.map List.tail) (List.nodup_cons.mp hnd).2 (by simpa using hlen)]
        simp [tableOf, List.map_append]
      · intro p hp he
        obtain ⟨f', hf', he2⟩ := mem_keysOf_rowPairs (he ▸ List.mem_map_of_mem Prod.fst hp)
        simp only [Option.some.injEq] at he2
        exact (List.nodup_cons.mp hnd).1 (he2 ▸ hf')

theorem processRows_all_blank (fieldnames : List String) :
    ∀ {rss : List (List String)} (t : Table), (∀ r ∈ rss, r = []) →
      processRows fieldnames t rss = t := by
  intro rss
  induction rss with
  | nil => intro t _; rfl
  | cons r rss ih =>
    intro t hall
    have hr : r = [] := hall r (List.mem_cons_self _ _)
    simp only [processRows, if_pos hr]
    exact ih t (fun r' hr' => hall r' (List.mem_cons_of_mem _ hr'))

theorem processRows_tableOf {fieldnames : List String} (hne : fieldnames ≠ [])
    (hnd : fieldnames.Nodup) :
    ∀ (rss : List (List String)) (rs₀ : List (List String)),
      (∀ r ∈ rss, r.length = fieldnames.length) →
      processRows fieldnames (tableOf fieldnames rs₀) rss =
        tableOf fieldnames (rs₀ ++ rss) := by
  intro rss
  induction rss with
  | nil => intro rs₀ _; simp [processRows]
  | cons r rss ih =>
    intro rs₀ hwf
    have hr : r ≠ [] := by
      intro he
      have := hwf r (List.mem_cons_self _ _)
      rw [he] at this
      exact hne (List.length_eq_zero.mp this.symm)
    simp only [processRows, if_neg hr]
    rw [makeRow_eq_rowPairs hnd (hwf r (List.mem_cons_self _ _))]
    rw [processRow_tableOf_step rs₀ hnd (hwf r (List.mem_cons_self _ _))]
    rw [ih (rs₀ ++ [r]) (fun r' hr' => hwf r' (List.mem_cons_of_mem _ hr'))]
    simp

/-- The master correspondence at the record level: on well-formed
records (unique header fields, every record exactly as long as the
header, at least one record) `processRows` builds exactly `tableOf`. -/
theorem processRows_wf_eq {fieldnames : List String} {rss : List (List String)}
    (hne : rss ≠ []) (hnd : fieldnames.Nodup)
    (hwf : ∀ r ∈ rss, r.length = fieldnames.length) :
    processRows fieldnames [] rss = tableOf fieldnames rss := by
  cases hf : fieldnames with
  | nil =>
    have hall : ∀ r ∈ rss, r = [] := by
      intro r hr
      have := hwf r hr
      rw [hf] at this
      exact List.length_eq_zero.mp (by simpa using this)
    rw [processRows_all_blank [] _ hall]
    rfl
  | cons f fs =>
    cases rss with
    | nil => exact absurd rfl hne
    | cons r₀ rest =>
      have hnd' : (f :: fs).Nodup := hf ▸ hnd
      have hwf' : ∀ r ∈ r₀ :: rest, r.length = (f :: fs).length := by
        intro r hr
        rw [← hf]
        exact hwf r hr
      have hr₀ : r₀ ≠ [] := by
        intro he
        have := hwf' r₀ (List.mem_cons_self _ _)
        rw [he] at this
        simp at this
      simp only [processRows, if_neg hr₀]
      rw [makeRow_eq_rowPairs hnd' (hwf' r₀ (List.mem_cons_self _ _))]
      have h0 : processRow [] (rowPairs (f :: fs) r₀) = tableOf (f :: fs) [r₀] :=
        processRow_nil_rowPairs hnd' (hwf' r₀ (List.mem_cons_self _ _))
      rw [h0]
      rw [processRows_tableOf (by simp) hnd' rest [r₀] ?_]
      · simp
      · intro r' hr'
        exact hwf' r' (List.mem_cons_of_mem _ hr')

/-! ## `tableOf` consequences -/

theorem tableOf_length (rs : List (List String)) :
    ∀ fieldnames : List String, (tableOf fieldnames rs).length = fieldnames.length := by
  intro fieldnames
  induction fieldnames generalizing rs with
  | nil => rfl
  | cons f fs ih => simp [tableOf, ih]

theorem tableOf_col_length :
    ∀ (fieldnames : List String) (rs : List (List String)) (e : Option String × List Cell),
      e ∈ tableOf fieldnames rs → e.2.length = rs.length := by
  intro fieldnames
  induction fieldnames with
  | nil => intro rs e he; simp [tableOf] at he
  | cons f fs ih =>
    intro rs e he
    rcases List.mem_cons.mp he with he | he
    · rw [he]
      simp
    · rw [ih (rs.map List.tail) e he]
      simp

theorem getD_tail {α : Type} (r : List α) (i : Nat) (d : α) :
    r.tail.getD i d = r.getD (i + 1) d := by
  cases r with
  | nil => rfl
  | cons v r => rfl

theorem dlookup_tableOf {fieldnames : List String} (hnd : fieldnames.Nodup) :
    ∀ (i : Nat) (rs : List (List String)), i < fieldnames.length →
      dlookup (tableOf fieldnames rs) (some (fieldnames.getD i "")) =
        rs.map (fun r => Cell.val (r.getD i "")) := by
  induction fieldnames with
  | nil => intro i rs hi; simp at hi
  | cons f fs ih =>
    intro i rs hi
    cases i with
    | zero =>
      simp only [tableOf, List.getD_cons_zero]
      rw [dlookup_cons_hit]
      refine List.map_congr_left ?_
      intro r _
      cases r <;> rfl
    | succ i =>
      simp only [tableOf, List.getD_cons_succ]
      have hmem : fs.getD i "" ∈ fs := getD_mem_of_lt _ fs i (by simpa using hi)
      have hne : some f ≠ some (fs.getD i "") := by
        simp only [Ne, Option.some.injEq]
        intro he
        exact (List.nodup_cons.mp hnd).1 (he ▸ hmem)
      rw [dlookup_cons_miss hne]
      rw [ih (List.nodup_cons.mp hnd).2 i (rs.map List.tail) (by simpa using hi)]
      rw [List.map_map]
      refine List.map_congr_left ?_
      intro r _
      simp only [Function.comp_apply, getD_tail]

theorem tableOf_row_read {fieldnames : List String} (hnd : fieldnames.Nodup) :
    ∀ (rs : List (List String)) (k : Nat),
      (∀ r ∈ rs, r.length = fieldnames.length) → k < rs.length →
      fieldnames.map
          (fun fl => cellStr ((dlookup (tableOf fieldnames rs) (some fl)).getD k Cell.restval)) =
        rs.getD k [] := by
  induction fieldnames with
  | nil =>
    intro rs k hwf hk
    have : (rs.getD k []).length = 0 := hwf _ (getD_mem_of_lt _ rs k hk)
    simp only [List.map_nil]
    exact (List.length_eq_zero.mp this).symm
  | cons f fs ih =>
    intro rs k hwf hk
    have hlen : (rs.getD k []).length = fs.length + 1 := by
      rw [hwf _ (getD_mem_of_lt _ rs k hk)]
      rfl
    have hknil : rs.getD k [] ≠ [] := by
      intro he
      rw [he] at hlen
      simp at hlen
    simp only [tableOf, List.map_cons]
    rw [dlookup_cons_hit]
    rw [getD_map_of_lt _ Cell.restval [] rs k hk]
    have htail : fs.map
        (fun fl => cellStr ((dlookup ((some f,
            rs.map fun r => Cell.val (r.headD "")) :: tableOf fs (rs.map List.tail))
          (some fl)).getD k Cell.restval)) =
        fs.map
          (fun fl => cellStr ((dlookup (tableOf fs (rs.map List.tail))
            (some fl)).getD k Cell.restval)) := by
      refine List.map_congr_left ?_
      intro fl hfl
      have hne : some f ≠ some fl := by
        simp only [Ne, Option.some.injEq]
        intro he
        exact (List.nodup_cons.mp hnd).1 (he ▸ hfl)
      rw [dlookup_cons_miss hne]
    rw [htail]
    rw [ih (List.nodup_cons.mp hnd).2 (rs.map List.tail) k ?_ (by simpa using hk)]
    · rw [getD_map_of_lt List.tail [] [] rs k hk]
      rw [show cellStr (Cell.val ((rs.getD k []).headD "")) = (rs.getD k []).headD "" from rfl]
      exact headD_cons_tail "" hknil
    · intro r hr
      obtain ⟨r₀, hr₀, he⟩ := List.mem_map.mp hr
      rw [← he, List.length_tail, hwf r₀ hr₀]
      rfl

/-! ## The general aggregation invariant (any input shape) -/

theorem processRows_invariant (fieldnames : List String) :
    ∀ (rss : List (List String)) (t : Table) (m : Nat),
      (∀ f ∈ fieldnames, (dlookup t (some f)).length = m) →
      (∀ x ∈ keysOf t, (∃ f ∈ fieldnames, x = some f) ∨ x = none) →
      (∀ (f : String) (c : Cell), c ∈ dlookup t (some f) →
        (∃ s, c = Cell.val s) ∨ c = Cell.restval) →
      (∀ c ∈ dlookup t none, ∃ vs, c = Cell.rest vs) →
      (∀ f ∈ fieldnames, (dlookup (processRows fieldnames t rss) (some f)).length
          = m + recordCount rss) ∧
      (∀ x ∈ keysOf (processRows fieldnames t rss),
          (∃ f ∈ fieldnames, x = some f) ∨ x = none) ∧
      (∀ (f : String) (c : Cell), c ∈ dlookup (processRows fieldnames t rss) (some f) →
          (∃ s, c = Cell.val s) ∨ c = Cell.restval) ∧
      (∀ c ∈ dlookup (processRows fieldnames t rss) none, ∃ vs, c = Cell.rest vs) := by
  intro rss
  induction rss with
  | nil =>
    intro t m h1 h2 h3 h4
    exact ⟨fun f hf => by simpa [recordCount] using h1 f hf, h2, h3, h4⟩
  | cons r rss ih =>
    intro t m h1 h2 h3 h4
    by_cases hr : r = []
    · subst hr
      simp only [processRows, recordCount, eq_self_iff_true, if_true, Nat.zero_add]
      exact ih t m h1 h2 h3 h4
    · simp only [processRows, if_neg hr, recordCount, if_neg hr]
      have hstep := ih (processRow t (makeRow fieldnames r)) (m + 1) ?_ ?_ ?_ ?_
      · refine ⟨fun f hf => ?_, hstep.2.1, hstep.2.2.1, hstep.2.2.2⟩
        rw [hstep.1 f hf]
        omega
      · intro f hf
        rw [dlookup_processRow, List.length_append, h1 f hf]
        obtain ⟨v, hv, _⟩ := valuesOf_eq_singleton
          (keysOf_makeRow_nodup fieldnames r) (mem_keysOf_makeRow hf)
        rw [hv]
        rfl
      · intro x hx
        rcases mem_keysOf_processRow hx with hx | hx
        · exact h2 x hx
        · exact mem_keysOf_makeRow_shape hx
      · intro f c hc
        rw [dlookup_processRow] at hc
        rcases List.mem_append.mp hc with hc | hc
        · exact h3 f c hc
        · have hp := mem_of_mem_valuesOf hc
          rcases makeRow_pair_shape hp with h | h | h
          · obtain ⟨f', s, he⟩ := h
            simp only [Prod.mk.injEq] at he
            exact Or.inl ⟨s, he.2⟩
          · obtain ⟨f', he⟩ := h
            simp only [Prod.mk.injEq] at he
            exact Or.inr he.2
          · simp only [Prod.mk.injEq] at h
            exact absurd h.1 (by simp)
      · intro c hc
        rw [dlookup_processRow] at hc
        rcases List.mem_append.mp hc with hc | hc
        · exact h4 c hc
        · have hp := mem_of_mem_valuesOf hc
          rcases makeRow_pair_shape hp with h | h | h
          · obtain ⟨f', s, he⟩ := h
            simp only [Prod.mk.injEq] at he
            exact absurd he.1 (by simp)
          · obtain ⟨f', he⟩ := h
            simp only [Prod.mk.injEq] at he
            exact absurd he.1 (by simp)
          · simp only [Prod.mk.injEq] at h
            exact ⟨r.drop fieldnames.length, h.2⟩

/-- The four-part invariant of the aggregated table, for every input
shape (short, long, blank or quote-glued lines included): every
header-named column has one entry per non-blank data record; every key
is a header name or the restkey `none`; header-named columns hold only
parsed values and `None` fillers; the restkey column holds only
surplus-value lists.  Header and record counts are taken over the csv
*records*, the unit the program actually aggregates. -/
theorem columns_invariant (sep : Char) (lines : List String) :
    (∀ f ∈ headerFields sep lines,
        (dlookup (columns sep lines) (some f)).length
          = recordCount (csvRecords sep lines).tail) ∧
    (∀ x ∈ keysOf (columns sep lines),
        (∃ f ∈ headerFields sep lines, x = some f) ∨ x = none) ∧
    (∀ (f : String) (c : Cell), c ∈ dlookup (columns sep lines) (some f) →
        (∃ s, c = Cell.val s) ∨ c = Cell.restval) ∧
    (∀ c ∈ dlookup (columns sep lines) none, ∃ vs, c = Cell.rest vs) := by
  cases hrec : csvRecords sep lines with
  | nil =>
    simp only [columns, hrec, headerFields, List.headD_nil, List.tail_nil]
    refine ⟨?_, ?_, ?_, ?_⟩ <;> simp [dlookup, keysOf]
  | cons header body =>
    have hinv := processRows_invariant header body [] 0
      (fun f _ => rfl) (by simp) (fun f c hc => by simp [dlookup] at hc)
      (fun c hc => by simp [dlookup] at hc)
    simp only [columns, hrec, headerFields, List.headD_cons, List.tail_cons, Nat.zero_add]
      at hinv ⊢
    exact hinv

/-! ## Quote-free parsing is plain splitting; the join round trip -/

theorem parseLineAux_complete {sep : Char} {cs : List Char} {st : CsvState}
    {field : List Char} {acc : List String} {fs : List String}
    (h : lineStepAux sep cs st field acc = .complete fs) :
    parseLineAux sep cs st field acc = fs := by
  rw [parseLineAux, h]

theorem parseLineAux_pending {sep : Char} {cs : List Char} {st : CsvState}
    {field : List Char} {acc : List String} {f : List Char} {a : List String}
    (h : lineStepAux sep cs st field acc = .pending f a) :
    parseLineAux sep cs st field acc = a ++ [String.mk f.reverse] := by
  rw [parseLineAux, h]

theorem splitSep_ne_nil (sep : Char) : ∀ cs : List Char, splitSep sep cs ≠ [] := by
  intro cs
  induction cs with
  | nil => simp [splitSep]
  | cons c cs ih =>
    by_cases hc : c = sep
    · simp [splitSep, hc]
    · simp only [splitSep, if_neg hc]
      cases hs : splitSep sep cs with
      | nil => simp
      | cons f fs => simp

theorem lineStepAux_startField_eq_inField (sep : Char) :
    ∀ (cs : List Char), (∀ c ∈ cs, c ≠ '\x22') → ∀ (field : List Char) (acc : List String),
      lineStepAux sep cs .startField field acc = lineStepAux sep cs .inField field acc := by
  intro cs
  induction cs with
  | nil => intro _ field acc; rfl
  | cons c cs ih =>
    intro hq field acc
    have hc : c ≠ '\x22' := hq c (List.mem_cons_self _ _)
    simp only [lineStepAux, if_neg hc]

theorem lineStepAux_startField_quote_free (sep : Char) :
    ∀ (cs : List Char), (∀ c ∈ cs, c ≠ '\x22') → ∀ (field : List Char) (acc : List String),
      lineStepAux sep cs .startField field acc
        = .complete (acc ++ consRevField field (splitSep sep cs)) := by
  intro cs
  induction cs with
  | nil =>
    intro _ field acc
    simp [lineStepAux, splitSep, consRevField]
  | cons c cs ih =>
    intro hq field acc
    have hq' : ∀ c' ∈ cs, c' ≠ '\x22' := fun c' hc' => hq c' (List.mem_cons_of_mem _ hc')
    have hc : c ≠ '\x22' := hq c (List.mem_cons_self _ _)
    by_cases hsep : c = sep
    · simp only [lineStepAux, if_neg hc, if_pos hsep, splitSep, if_pos hsep]
      rw [ih hq' [] (acc ++ [String.mk field.reverse])]
      cases hs : splitSep sep cs with
      | nil => exact absurd hs (splitSep_ne_nil sep cs)
      | cons f fs =>
        simp [consRevField]
    · simp only [lineStepAux, if_neg hc, if_neg hsep, splitSep]
      rw [← lineStepAux_startField_eq_inField sep cs hq' (c :: field) acc]
      rw [ih hq' (c :: field) acc]
      cases hs : splitSep sep cs with
      | nil => exact absurd hs (splitSep_ne_nil sep cs)
      | cons f fs =>
        simp only [consRevField, List.reverse_cons, List.append_assoc, List.singleton_append]

theorem lineComplete_of_quote_free (sep : Char) (line : String)
    (hq : ∀ c ∈ line.data, c ≠ '\x22') : lineComplete sep line = true := by
  by_cases hnil : line = ""
  · rw [lineComplete, if_pos hnil]
  · rw [lineComplete, if_neg hnil, lineStepAux_startField_quote_free sep line.data hq [] []]

theorem joinSepChars_splitSep (sep : Char) :
    ∀ cs : List Char, joinSepChars sep (splitSep sep cs) = cs := by
  intro cs
  induction cs with
  | nil => rfl
  | cons c cs ih =>
    by_cases hsep : c = sep
    · simp only [splitSep, if_pos hsep]
      cases hs : splitSep sep cs with
      | nil => exact absurd hs (splitSep_ne_nil sep cs)
      | cons f fs =>
        simp only [joinSepChars, List.nil_append]
        rw [← hs, ih, hsep]
    · simp only [splitSep, if_neg hsep]
      cases hs : splitSep sep cs with
      | nil => exact absurd hs (splitSep_ne_nil sep cs)
      | cons f fs =>
        rw [hs] at ih
        cases fs with
        | nil =>
          simp only [joinSepChars] at ih ⊢
          rw [ih]
        | cons g fs =>
          simp only [joinSepChars] at ih ⊢
          rw [List.cons_append, ih]

theorem mk_append (a b : List Char) : String.mk a ++ String.mk b = String.mk (a ++ b) := rfl

theorem joinWithSep_map_mk (sep : Char) :
    ∀ l : List (List Char), joinWithSep sep (l.map String.mk) = String.mk (joinSepChars sep l)
  | [] => rfl
  | [f] => rfl
  | f :: g :: fs => by
    simp only [List.map_cons, joinWithSep, joinSepChars]
    rw [show (String.mk g :: fs.map String.mk) = (g :: fs).map String.mk from rfl]
    rw [joinWithSep_map_mk sep (g :: fs)]
    rw [mk_append, mk_append]
    simp

theorem joinWithSep_parseLine (sep : Char) {line : String}
    (hq : ∀ c ∈ line.data, c ≠ '\x22') :
    joinWithSep sep (parseLine sep line) = line := by
  by_cases hnil : line = ""
  · rw [hnil]
    rfl
  · rw [parseLine, if_neg hnil]
    rw [parseLineAux_complete (lineStepAux_startField_quote_free sep line.data hq [] [])]
    cases hs : splitSep sep line.data with
    | nil => exact absurd hs (splitSep_ne_nil sep line.data)
    | cons f fs =>
      have hcrf : consRevField [] (f :: fs) = (f :: fs).map String.mk := by
        simp [consRevField]
      rw [List.nil_append, hcrf, joinWithSep_map_mk, ← hs, joinSepChars_splitSep]

/-! ## The record stream: complete lines parse independently -/

theorem csvRecords_cons_complete {sep : Char} {line : String}
    (hc : lineComplete sep line = true) (rest : List String) :
    csvRecords sep (line :: rest) = parseLine sep line :: csvRecords sep rest := by
  by_cases hnil : line = ""
  · subst hnil
    simp [csvRecords, csvRecordsAux, parseLine]
  · rw [lineComplete, if_neg hnil] at hc
    cases hs : lineStepAux sep line.data .startField [] [] with
    | complete fs =>
      simp only [csvRecords, csvRecordsAux, if_neg hnil, hs]
      rw [parseLine, if_neg hnil, parseLineAux_complete hs]
    | pending f a =>
      rw [hs] at hc
      simp at hc

theorem csvRecords_singleton (sep : Char) (line : String) :
    csvRecords sep [line] = [parseLine sep line] := by
  by_cases hnil : line = ""
  · subst hnil
    simp [csvRecords, csvRecordsAux, parseLine]
  · cases hs : lineStepAux sep line.data .startField [] [] with
    | complete fs =>
      simp only [csvRecords, csvRecordsAux, if_neg hnil, hs]
      rw [parseLine, if_neg hnil, parseLineAux_complete hs]
    | pending f a =>
      simp only [csvRecords, csvRecordsAux, if_neg hnil, hs]
      rw [parseLine, if_neg hnil, parseLineAux_pending hs]

theorem csvRecords_all_complete (sep : Char) :
    ∀ {lines : List String}, (∀ l ∈ lines, lineComplete sep l = true) →
      csvRecords sep lines = lines.map (parseLine sep) := by
  intro lines
  induction lines with
  | nil => intro _; rfl
  | cons line rest ih =>
    intro hall
    rw [csvRecords_cons_complete (hall line (List.mem_cons_self _ _)) rest]
    rw [ih (fun l hl => hall l (List.mem_cons_of_mem _ hl))]
    rfl

theorem columns_of_complete (sep : Char) (h : String) (body : List String)
    (hcomp : ∀ l ∈ h :: body, lineComplete sep l = true) :
    columns sep (h :: body) = processRows (parseLine sep h) [] (body.map (parseLine sep)) := by
  have hrec : csvRecords sep (h :: body) = parseLine sep h :: body.map (parseLine sep) := by
    rw [csvRecords_all_complete sep hcomp]
    rfl
  simp only [columns, hrec]

theorem headerFields_cons_complete {sep : Char} {h : String}
    (hc : lineComplete sep h = true) (body : List String) :
    headerFields sep (h :: body) = parseLine sep h := by
  rw [headerFields, csvRecords_cons_complete hc body]
  rfl

theorem columns_pair_complete {sep : Char} {h : String} (hc : lineComplete sep h = true)
    (r : String) :
    columns sep [h, r] = processRows (parseLine sep h) [] [parseLine sep r] := by
  have hrec : csvRecords sep [h, r] = [parseLine sep h, parseLine sep r] := by
    rw [csvRecords_cons_complete hc [r], csvRecords_singleton]
  simp only [columns, hrec]

/-- The master correspondence: on a well-formed input (every line a
complete record on its own, unique header fields, every data line
parsing to exactly as many fields as the header, at least one data line)
the aggregated `columns` table is exactly `tableOf` of the parsed
lines. -/
theorem columns_wf_eq (sep : Char) (h : String) {body : List String} (hne : body ≠ [])
    (hcomp : ∀ l ∈ h :: body, lineComplete sep l = true)
    (hnd : (parseLine sep h).Nodup)
    (hwf : ∀ r ∈ body, (parseLine sep r).length = (parseLine sep h).length) :
    columns sep (h :: body) = tableOf (parseLine sep h) (body.map (parseLine sep)) := by
  rw [columns_of_complete sep h body hcomp]
  refine processRows_wf_eq ?_ hnd ?_
  · intro he
    rcases body with _ | ⟨r, rest⟩
    · exact hne rfl
    · simp at he
  · intro r hr
    obtain ⟨l, hl, he⟩ := List.mem_map.mp hr
    exact he ▸ hwf l hl

/-! ## Claim theorems -/

/-- C1 (counterexample): the claim quantifies over every well-formed
input, which includes a header with zero data lines; there the
`defaultdict` never receives an append, so the table has zero field-name
entries, not one per header column. -/
theorem C1_counterexample :
    ¬ (columns '|' ["zone|mean"]).length = (parseLine '|' "zone|mean").length := by
  decide

/-- C1 (amended): for every well-formed input with at least one data line
(header plus N ≥ 1 data lines, every line a complete csv record on its
own, each data line parsing to exactly as many fields as the header,
header names unique), the table has exactly as many entries as header
columns and every column sequence has length exactly N. -/
theorem C1_amended (sep : Char) (h : String) {body : List String} (hne : body ≠ [])
    (hcomp : ∀ l ∈ h :: body, lineComplete sep l = true)
    (hnd : (parseLine sep h).Nodup)
    (hwf : ∀ r ∈ body, (parseLine sep r).length = (parseLine sep h).length) :
    (columns sep (h :: body)).length = (parseLine sep h).length ∧
    ∀ e ∈ columns sep (h :: body), e.2.length = body.length := by
  rw [columns_wf_eq sep h hne hcomp hnd hwf]
  refine ⟨tableOf_length _ _, fun e he => ?_⟩
  rw [tableOf_col_length _ _ e he]
  simp

/-- C1 (witness): the amended claim evaluated on the input with header
`a|b` and the single data line `1|2`. -/
theorem C1_witness :
    (columns '|' ["a|b", "1|2"]).length = (parseLine '|' "a|b").length ∧
    ∀ e ∈ columns '|' ["a|b", "1|2"], e.2.length = ["1|2"].length :=
  C1_amended '|' "a|b" (by decide) (by decide) (by decide) (by decide)

/-- C2: on the concrete `|`-delimited input of the spec, the aggregator
returns exactly the table mapping `zone` to `["1","2"]`, `mean` to
`["12.5","8.0"]` and `stddev` to `["3.2","1.1"]`, in header order. -/
theorem C2_concrete :
    columnsOfText '|' "zone|mean|stddev\n1|12.5|3.2\n2|8.0|1.1\n" =
      [(some "zone", [Cell.val "1", Cell.val "2"]),
       (some "mean", [Cell.val "12.5", Cell.val "8.0"]),
       (some "stddev", [Cell.val "3.2", Cell.val "1.1"])] := by
  decide

/-- C3 (counterexample): the input `['a|b', '1|"2', '3|4']` satisfies the
claim's per-line well-formedness (each data line shows two
delimiter-separated fields, matching the two unique header columns), but
the open quote of the first data line glues both data lines into the
single record `{a: '1', b: '23|4'}`: the first element of column `b` is
`23|4`, not the first data line's value in the `b` position. -/
theorem C3_counterexample :
    (dlookup (columns '|' ["a|b", "1|\x222", "3|4"])
        (some ((parseLine '|' "a|b").getD 1 ""))).getD 0 Cell.restval
      ≠ Cell.val ((parseLine '|' (["1|\x222", "3|4"].getD 0 "")).getD 1 "") := by
  decide

/-- C3 (amended): on a well-formed input whose lines are each a complete
csv record (no quoted field left open at a line end), with unique header
names and matching field counts, the k-th element of the column of the
i-th header field is the i-th field of the k-th data line: row order is
preserved. -/
theorem C3_row_order (sep : Char) (h : String) {body : List String}
    (hcomp : ∀ l ∈ h :: body, lineComplete sep l = true)
    (hnd : (parseLine sep h).Nodup)
    (hwf : ∀ r ∈ body, (parseLine sep r).length = (parseLine sep h).length)
    (i k : Nat) (hi : i < (parseLine sep h).length) (hk : k < body.length) :
    (dlookup (columns sep (h :: body)) (some ((parseLine sep h).getD i ""))).getD k Cell.restval
      = Cell.val ((parseLine sep (body.getD k "")).getD i "") := by
  have hne : body ≠ [] := by
    intro he
    rw [he] at hk
    simp at hk
  rw [columns_wf_eq sep h hne hcomp hnd hwf]
  rw [dlookup_tableOf hnd i (body.map (parseLine sep)) hi]
  rw [getD_map_of_lt (fun r => Cell.val (r.getD i "")) Cell.restval []
    (body.map (parseLine sep)) k (by simpa using hk)]
  rw [getD_map_of_lt (parseLine sep) [] "" body k hk]

/-- C3 (witness): the row-order theorem evaluated at the input with
header `a|b`, data line `1|2`, column index 1, row index 0. -/
theorem C3_witness :
    (dlookup (columns '|' ["a|b", "1|2"]) (some ((parseLine '|' "a|b").getD 1 ""))).getD 0
        Cell.restval
      = Cell.val ((parseLine '|' (["1|2"].getD 0 "")).getD 1 "") :=
  C3_row_order '|' "a|b" (by decide) (by decide) (by decide) 1 0 (by decide) (by decide)

/-- C4 (counterexample): the round trip fails on a well-formed data line
containing csv quote characters: `"1"|2` parses to the fields `1` and
`2` (two fields, matching the two header columns, so the input is
well-formed), and re-joining yields `1|2`, not the original line. -/
theorem C4_counterexample :
    rowJoin '|' ["a|b", "\x221\x22|2"] 0 ≠ "\x221\x22|2" := by
  decide

/-- C4 (amended): for every well-formed input whose header line is a
complete csv record and whose data lines contain no quote character,
re-joining the k-th row's values in header field order with the
delimiter reproduces the k-th data line exactly. -/
theorem C4_amended (sep : Char) (h : String) {body : List String}
    (hch : lineComplete sep h = true)
    (hnd : (parseLine sep h).Nodup)
    (hwf : ∀ r ∈ body, (parseLine sep r).length = (parseLine sep h).length)
    (hq : ∀ r ∈ body, ∀ c ∈ r.data, c ≠ '\x22')
    (k : Nat) (hk : k < body.length) :
    rowJoin sep (h :: body) k = body.getD k "" := by
  have hne : body ≠ [] := by
    intro he
    rw [he] at hk
    simp at hk
  have hcomp : ∀ l ∈ h :: body, lineComplete sep l = true := by
    intro l hl
    rcases List.mem_cons.mp hl with he | hl2
    · exact he ▸ hch
    · exact lineComplete_of_quote_free sep l (hq l hl2)
  unfold rowJoin
  rw [headerFields_cons_complete hch body]
  rw [columns_wf_eq sep h hne hcomp hnd hwf]
  rw [tableOf_row_read hnd (body.map (parseLine sep)) k ?_ (by simpa using hk)]
  · rw [getD_map_of_lt (parseLine sep) [] "" body k hk]
    exact joinWithSep_parseLine sep (hq _ (getD_mem_of_lt "" body k hk))
  · intro r hr
    obtain ⟨l, hl, he⟩ := List.mem_map.mp hr
    exact he ▸ hwf l hl

/-- C4 (witness): the amended round trip evaluated on header `a|b` and
quote-free data line `1|2`, row 0. -/
theorem C4_witness : rowJoin '|' ["a|b", "1|2"] 0 = ["1|2"].getD 0 "" :=
  C4_amended '|' "a|b" (by decide) (by decide) (by decide) (by decide) 0 (by decide)

/-- C5 (counterexample): after aggregating a header-only input, the
header column `zone` is not present as a key of the table: the
`defaultdict` starts empty and the loop body never runs. -/
theorem C5_counterexample :
    some "zone" ∉ keysOf (columns '|' ["zone|mean|stddev"]) := by
  decide

/-- C5 (amended): an input consisting of only a header line yields the
empty table (no keys at all); looking any field name up — header column
names included — still returns the empty sequence, because the table is
a `defaultdict(list)`.  (A single-line input always yields exactly one
record — an open quote is closed at end of data — so no gluing can
occur here.) -/
theorem C5_amended (sep : Char) (h : String) :
    columns sep [h] = [] ∧ ∀ f : String, dlookup (columns sep [h]) (some f) = [] := by
  have hcol : columns sep [h] = [] := by
    simp only [columns, csvRecords_singleton, processRows]
  exact ⟨hcol, fun f => by rw [hcol]; rfl⟩

/-- C6 (counterexample): a data line with one fewer field than the header
does not raise any error: `DictReader` pads the missing field with
`None`, and the aggregation returns a fully populated table containing a
`None` placeholder — the silent padding the claim rules out. -/
theorem C6_counterexample :
    columns '|' ["a|b", "1"] = [(some "a", [Cell.val "1"]), (some "b", [Cell.restval])] := by
  decide

/-- C6 (amended): when the header line is a complete csv record, a data
line with fewer fields than the header does not fail and no
`MalformedRecord` error exists: every header column still receives
exactly one entry for the row, and every header field beyond the row's
length receives the `None` placeholder. -/
theorem C6_amended (sep : Char) (h r : String)
    (hch : lineComplete sep h = true)
    (hnd : (parseLine sep h).Nodup)
    (hne : parseLine sep r ≠ [])
    (hlt : (parseLine sep r).length < (parseLine sep h).length) :
    (∀ f ∈ parseLine sep h, (dlookup (columns sep [h, r]) (some f)).length = 1) ∧
    (∀ f ∈ (parseLine sep h).drop (parseLine sep r).length,
      dlookup (columns sep [h, r]) (some f) = [Cell.restval]) := by
  have hcol : columns sep [h, r]
      = processRow [] (makeRow (parseLine sep h) (parseLine sep r)) := by
    rw [columns_pair_complete hch r]
    simp only [processRows, if_neg hne]
  rw [hcol]
  constructor
  · intro f hf
    rw [dlookup_processRow]
    obtain ⟨v, hv, _⟩ := valuesOf_eq_singleton
      (keysOf_makeRow_nodup (parseLine sep h) (parseLine sep r)) (mem_keysOf_makeRow hf)
    rw [hv]
    rfl
  · intro f hfd
    rw [dlookup_processRow]
    obtain ⟨v, hv, hmem⟩ := valuesOf_eq_singleton
      (keysOf_makeRow_nodup (parseLine sep h) (parseLine sep r))
      (mem_keysOf_makeRow (mem_of_mem_drop hfd))
    have hpad := makeRow_pad_restval hnd hlt hfd
    have hveq : v = Cell.restval :=
      value_unique (keysOf_makeRow_nodup (parseLine sep h) (parseLine sep r)) hmem hpad
    rw [hv, hveq]
    rfl

/-- C6 (witness): the amended claim evaluated on header `a|b` and the
short data line `1`. -/
theorem C6_witness :
    (∀ f ∈ parseLine '|' "a|b", (dlookup (columns '|' ["a|b", "1"]) (some f)).length = 1) ∧
    (∀ f ∈ (parseLine '|' "a|b").drop (parseLine '|' "1").length,
      dlookup (columns '|' ["a|b", "1"]) (some f) = [Cell.restval]) :=
  C6_amended '|' "a|b" "1" (by decide) (by decide) (by decide) (by decide)

/-- C7 (counterexample): converting the `mean` column and the `stddev`
column of a table in which both hold only the unconvertible value `abc`
produces the very same error, carrying nothing but the offending value:
the conversion step — `np.array` applied to the bare value list — has no
access to the column name and cannot report it, contrary to the claim.
(`pyFloatOK` is exact on this ASCII value.) -/
theorem C7_counterexample :
    npFloat32Column pyFloatOK
        (dlookup (columns '|' ["mean|stddev", "abc|abc"]) (some "mean"))
      = Except.error (ConvErr.valueError "abc") ∧
    npFloat32Column pyFloatOK
        (dlookup (columns '|' ["mean|stddev", "abc|abc"]) (some "stddev"))
      = Except.error (ConvErr.valueError "abc") := by
  constructor
  · rfl
  · rfl

/-- C7 (amended): for any scalar acceptance `accept` of the external
Python `float()` — the conversion is proved for every such predicate,
hence in particular for the real one, Unicode forms included — if some
string value of a selected column is not accepted, the conversion
reports an error carrying an offending raw value (never silently
coercing to zero or dropping it); no column name occurs in the error.
The hypothesis that the column has no restkey cell holds for every
aggregated column under a `some` key by the table invariant. -/
theorem C7_amended (accept : String → Bool) :
    ∀ (vals : List Cell) (s : String), Cell.val s ∈ vals → accept s = false →
      (∀ c ∈ vals, isRest c = false) →
      ∃ t, accept t = false ∧
        npFloat32Column accept vals = Except.error (ConvErr.valueError t) := by
  intro vals
  induction vals with
  | nil =>
    intro s hmem _ _
    simp at hmem
  | cons c rest ih =>
    intro s hmem hbad hcells
    cases c with
    | val u =>
      by_cases hu : accept u = true
      · have hsr : Cell.val s ∈ rest := by
          rcases List.mem_cons.mp hmem with he | he
          · injection he with he2
            rw [he2] at hbad
            rw [hbad] at hu
            exact Bool.noConfusion hu
          · exact he
        obtain ⟨t, ht1, ht2⟩ := ih s hsr hbad (fun c hc => hcells c (List.mem_cons_of_mem _ hc))
        refine ⟨t, ht1, ?_⟩
        simp only [npFloat32Column, hu, if_true]
        exact ht2
      · have hu2 : accept u = false := by simpa using hu
        refine ⟨u, hu2, ?_⟩
        simp [npFloat32Column, hu2]
    | restval =>
      have hsr : Cell.val s ∈ rest := by
        rcases List.mem_cons.mp hmem with he | he
        · exact absurd he (by simp)
        · exact he
      obtain ⟨t, ht1, ht2⟩ := ih s hsr hbad (fun c hc => hcells c (List.mem_cons_of_mem _ hc))
      exact ⟨t, ht1, ht2⟩
    | rest vs =>
      have := hcells _ (List.mem_cons_self _ _)
      simp [isRest] at this

/-- C7 (witness): the amended claim evaluated with the concrete ASCII
acceptance fragment on the one-element column `["abc"]`. -/
theorem C7_witness :
    ∃ t, pyFloatOK t = false ∧
      npFloat32Column pyFloatOK [Cell.val "abc"]
        = Except.error (ConvErr.valueError t) :=
  C7_amended pyFloatOK [Cell.val "abc"] "abc" (by decide) (by decide) (by decide)

/-- C8: the aggregation is a pure function of the input lines and the
delimiter: two runs on the same input produce equal tables.  (The
side-effect freedom of the source loop — it only appends to the local
`columns` — is what makes the pure-function embedding faithful.) -/
theorem C8_deterministic (sep : Char) (lines : List String) (t₁ t₂ : Table)
    (h₁ : t₁ = columns sep lines) (h₂ : t₂ = columns sep lines) : t₁ = t₂ := by
  rw [h₁, h₂]

/-- C8 (witness): two runs on a concrete input coincide. -/
theorem C8_witness : columns '|' ["a|b", "1|2"] = columns '|' ["a|b", "1|2"] :=
  C8_deterministic '|' ["a|b", "1|2"] _ _ rfl rfl

/-- C9: looking up a field name that does not occur in the header the
program works with — the field names of the first csv record — never
fails and returns the empty sequence (the table only ever holds
header-named keys and the restkey), making an absent column
indistinguishable from a column with no data.  No restriction on the
input: gluing across lines changes the header record, never this
property. -/
theorem C9_absent_lookup (sep : Char) (lines : List String) (f : String)
    (hf : f ∉ headerFields sep lines) :
    dlookup (columns sep lines) (some f) = [] := by
  refine dlookup_of_not_mem ?_
  intro hmem
  rcases (columns_invariant sep lines).2.1 _ hmem with ⟨f', hf', he⟩ | he
  · rw [Option.some.injEq] at he
    exact hf (he ▸ hf')
  · exact Option.noConfusion he

/-- C9 (witness): looking `stddev` up in a table whose header record is
`zone|mean` returns the empty sequence. -/
theorem C9_witness : dlookup (columns '|' ["zone|mean", "1|2"]) (some "stddev") = [] :=
  C9_absent_lookup '|' ["zone|mean", "1|2"] "stddev" (by decide)

/-- C10 (counterexample): at `['a|b', '1|"2', '3']` the short data line
`3` is swallowed into the open quoted field of the previous line: the
`b` column ends up holding the single glued value `23`, no `None`
placeholder is ever added for the short line's missing field, and the
column length is the record count 1, not the per-line count 2 — the
claim's per-data-line reading is false of the code. -/
theorem C10_counterexample :
    ¬ ((dlookup (columns '|' ["a|b", "1|\x222", "3"]) (some "b")).length
        = recordCount (["1|\x222", "3"].map (parseLine '|'))) ∧
    Cell.restval ∉ dlookup (columns '|' ["a|b", "1|\x222", "3"]) (some "b") := by
  decide

/-- C10 (amended): for every input, also with short, long or blank data
lines and with records glued across lines by open quotes, the
aggregation completes and (1) every header-named column has exactly one
entry per non-blank data *record* — the equal-length invariant, over the
unit csv actually aggregates; (2) every key is a header name or the
separate non-header restkey `none`; (3) header-named columns hold only
parsed string values and `None` placeholders (a record with fewer fields
than the header contributes one `None` per absent field name); (4) the
restkey column holds only the surplus-value lists of long records. -/
theorem C10_invariant (sep : Char) (lines : List String) :
    (∀ f ∈ headerFields sep lines,
        (dlookup (columns sep lines) (some f)).length
          = recordCount (csvRecords sep lines).tail) ∧
    (∀ x ∈ keysOf (columns sep lines),
        (∃ f ∈ headerFields sep lines, x = some f) ∨ x = none) ∧
    (∀ (f : String) (c : Cell), c ∈ dlookup (columns sep lines) (some f) →
        (∃ s, c = Cell.val s) ∨ c = Cell.restval) ∧
    (∀ c ∈ dlookup (columns sep lines) none, ∃ vs, c = Cell.rest vs) :=
  columns_invariant sep lines

/-- C10 (witness): the equal-length invariant evaluated on an input with
a short line, a long line and a blank line. -/
theorem C10_witness :
    (dlookup (columns '|' ["a|b", "1", "2|3|4", ""]) (some "a")).length
      = recordCount (csvRecords '|' ["a|b", "1", "2|3|4", ""]).tail :=
  (C10_invariant '|' ["a|b", "1", "2|3|4", ""]).1 "a" (by decide)

end Grass
